import Mathlib

/-!
Verification of the tensor-algebra core of the `differential-geometry`
repository (files `src/tensors/tensor.rs`, `src/coordinates.rs`).

Components (`f64` in the source) are modelled as exact rationals `ℚ`;
machine floating point is idealised as exact field arithmetic.  A Rust
`panic!`/`assert!` is modelled by returning `none` from an
`Option`-valued function.  Flat component storage (`GenericArray<f64, _>`)
is modelled as `List ℚ` read through `List.getD` (an out-of-bounds read,
which panics in Rust, reads the default `0`; all theorems below only ever
read in bounds).
-/

/-- Index kinds, from `tensors/mod.rs` (`IndexType` with variants
`Covariant` and `Contravariant`). -/
inductive IndexType where
  | Covariant : IndexType
  | Contravariant : IndexType
deriving DecidableEq, Repr

open IndexType

/-- A tensor, from `tensors/tensor.rs`: anchored at a point `p` (a list of
coordinates, `Point<T>`), with a dimension (the coordinate system's
`T::Dimension`), a variance descriptor (the type-level `V: Variance`,
reified as a list of index kinds; its length is the rank), and the flat
component array `x` of length `dim ^ rank`. -/
structure Tensor where
  dim : ℕ
  p : List ℚ
  var : List IndexType
  x : List ℚ
deriving DecidableEq, Repr

/-- The row-major flattening fold used by `Tensor::get_coord`:
`i.into_iter().fold(0, |res, idx| res * dim + idx)`. -/
def flattenL (dim : ℕ) (i : List ℕ) : ℕ :=
  i.foldl (fun res idx => res * dim + idx) 0

/-- `Tensor::get_coord` from `tensor.rs`: converts a multi-index slice into
a flat array offset.  The two `assert`s (length equals the rank, every
component below the dimension) are modelled by `none`. -/
def get_coord (dim rank : ℕ) (i : List ℕ) : Option ℕ :=
  if i.length = rank ∧ ∀ idx ∈ i, idx < dim then some (flattenL dim i) else none

theorem foldl_flatten_init (dim : ℕ) (l : List ℕ) (r : ℕ) :
    l.foldl (fun res idx => res * dim + idx) r = r * dim ^ l.length + flattenL dim l := by
  induction l generalizing r with
  | nil => simp [flattenL]
  | cons a l ih =>
    simp only [List.foldl_cons, List.length_cons, flattenL]
    rw [ih (r * dim + a), ih (0 * dim + a)]
    ring

theorem flattenL_cons (dim a : ℕ) (l : List ℕ) :
    flattenL dim (a :: l) = a * dim ^ l.length + flattenL dim l := by
  show (a :: l).foldl (fun res idx => res * dim + idx) 0 = _
  rw [List.foldl_cons, foldl_flatten_init]
  ring_nf

theorem flattenL_append (dim : ℕ) (a b : List ℕ) :
    flattenL dim (a ++ b) = flattenL dim a * dim ^ b.length + flattenL dim b := by
  show (a ++ b).foldl _ 0 = _
  rw [List.foldl_append, foldl_flatten_init]
  rfl

theorem flattenL_lt (dim : ℕ) (l : List ℕ) (h : ∀ x ∈ l, x < dim) :
    flattenL dim l < dim ^ l.length := by
  induction l with
  | nil => simp [flattenL]
  | cons a l ih =>
    rw [flattenL_cons]
    have ha : a < dim := h a (by simp)
    have hl : flattenL dim l < dim ^ l.length := ih (fun x hx => h x (by simp [hx]))
    calc a * dim ^ l.length + flattenL dim l
        < a * dim ^ l.length + dim ^ l.length := by omega
      _ = (a + 1) * dim ^ l.length := by ring
      _ ≤ dim * dim ^ l.length := Nat.mul_le_mul_right _ ha
      _ = dim ^ (a :: l).length := by rw [List.length_cons]; ring

theorem flattenL_append_div (dim : ℕ) (a b : List ℕ) (hb : ∀ x ∈ b, x < dim) :
    flattenL dim (a ++ b) / dim ^ b.length = flattenL dim a := by
  have hlt := flattenL_lt dim b hb
  have hpos : 0 < dim ^ b.length := Nat.lt_of_le_of_lt (Nat.zero_le _) hlt
  rw [flattenL_append, Nat.mul_comm, Nat.mul_add_div hpos, Nat.div_eq_of_lt hlt, Nat.add_zero]

theorem flattenL_append_mod (dim : ℕ) (a b : List ℕ) (hb : ∀ x ∈ b, x < dim) :
    flattenL dim (a ++ b) % dim ^ b.length = flattenL dim b := by
  have hlt := flattenL_lt dim b hb
  rw [flattenL_append, Nat.mul_comm, Nat.mul_add_mod, Nat.mod_eq_of_lt hlt]

/-- Sum form of the flattening: `flattenL` computes
`Σ_k i_k · dim ^ (len - 1 - k)` (the last index varies fastest). -/
theorem flattenL_eq_sum (dim : ℕ) (l : List ℕ) :
    flattenL dim l
      = ((List.range l.length).map (fun k => l.getD k 0 * dim ^ (l.length - 1 - k))).sum := by
  induction l with
  | nil => simp [flattenL]
  | cons a l ih =>
    rw [flattenL_cons, List.length_cons, List.range_succ_eq_map, List.map_cons, List.map_map,
      List.sum_cons]
    have h1 : (List.map ((fun k => (a :: l).getD k 0 * dim ^ (l.length + 1 - 1 - k)) ∘
        Nat.succ) (List.range l.length)).sum
        = ((List.range l.length).map (fun k => l.getD k 0 * dim ^ (l.length - 1 - k))).sum := by
      apply congrArg
      apply List.map_congr_left
      intro k _
      simp only [Function.comp_apply, List.getD_cons_succ]
      congr 2
      omega
    rw [h1, ih]
    simp

/-- `List.getD` applied to a `map` over `List.range`, in bounds. -/
theorem getD_range_map {α : Type} [Inhabited α] (f : ℕ → α) (d : α) (n k : ℕ) (hk : k < n) :
    ((List.range n).map f).getD k d = f k := by
  rw [List.getD_eq_getElem?_getD, List.getElem?_map, List.getElem?_range hk]
  rfl

/-- `Tensor::zero` from `tensor.rs`: all components zero
(`GenericArray::default()`), anchored at `point`. -/
def zeroT (dim : ℕ) (point : List ℚ) (v : List IndexType) : Tensor :=
  { dim := dim, p := point, var := v, x := List.replicate (dim ^ v.length) 0 }

/-- `AddAssign`/`Add` for `Tensor` from `tensor.rs`: asserts the points are
equal (modelled by `none`), then adds componentwise over
`0..get_num_coords()`; result keeps the receiver's point. -/
def addT (t1 t2 : Tensor) : Option Tensor :=
  if t1.p = t2.p then
    some { dim := t1.dim, p := t1.p, var := t1.var,
           x := (List.range (t1.dim ^ t1.var.length)).map
                  (fun i => t1.x.getD i 0 + t2.x.getD i 0) }
  else none

/-- `SubAssign`/`Sub` for `Tensor` from `tensor.rs`. -/
def subT (t1 t2 : Tensor) : Option Tensor :=
  if t1.p = t2.p then
    some { dim := t1.dim, p := t1.p, var := t1.var,
           x := (List.range (t1.dim ^ t1.var.length)).map
                  (fun i => t1.x.getD i 0 - t2.x.getD i 0) }
  else none

/-- `MulAssign<f64>`/`Mul<f64>` for `Tensor` from `tensor.rs`
(componentwise scaling). -/
def scaleT (t : Tensor) (s : ℚ) : Tensor :=
  { dim := t.dim, p := t.p, var := t.var,
    x := (List.range (t.dim ^ t.var.length)).map (fun i => t.x.getD i 0 * s) }

/-- `DivAssign<f64>`/`Div<f64>` for `Tensor` from `tensor.rs`. -/
def divT (t : Tensor) (s : ℚ) : Tensor :=
  { dim := t.dim, p := t.p, var := t.var,
    x := (List.range (t.dim ^ t.var.length)).map (fun i => t.x.getD i 0 / s) }

/-- Modelled from the spec: the `equals` operation of §4.1 ("componentwise
equality of Points and of all components", no tolerance).  No `PartialEq`
implementation for `Tensor` appears under `src/`; only `Point` equality is
in `coordinates.rs`. -/
def equalsT (t1 t2 : Tensor) : Prop := t1.p = t2.p ∧ t1.x = t2.x

instance (t1 t2 : Tensor) : Decidable (equalsT t1 t2) := by
  unfold equalsT; infer_instance

/-- Modelled from the spec: `Contracted<V, Ul, Uh>` is defined in
`src/tensors/variance.rs`, which is not present under `src/`; per §4.3 the
contracted variance has rank `rank - 2` "with `lo` and `hi` removed from
the index sequence". -/
def contractedVariance (v : List IndexType) (lo hi : ℕ) : List IndexType :=
  (v.eraseIdx hi).eraseIdx lo

/-- Modelled from the spec: `Concat`/`Joined<U, V>` is defined in the
missing `src/tensors/variance.rs`; per §4.4 the result variance is "the
concatenation of A's and B's variance descriptors (order preserved, A
first)". -/
def joinedVariance (u v : List IndexType) : List IndexType := u ++ v

/-- Modelled from the spec: `OtherIndex` is defined in the missing
`src/tensors/variance.rs`; per §4.7 the inverse carries "slot kinds
swapped relative to the input", i.e. each kind is flipped. -/
def otherIndex : IndexType → IndexType
  | IndexType.Covariant => IndexType.Contravariant
  | IndexType.Contravariant => IndexType.Covariant

/-- `Tensor::trace` from `tensor.rs`: contracts the index positions
`lo < hi` (the type parameters `Ul`, `Uh`), using the stride scheme
`modh = dim^(rank-1-hi)`, `modl = dim^(rank-2-lo)` and summing
`self[template + i*modl*dim + i*modh]` over the contracted dimension. -/
def trace (t : Tensor) (lo hi : ℕ) : Tensor :=
  let rank := t.var.length
  let dim := t.dim
  let cvar := contractedVariance t.var lo hi
  let modh := dim ^ (rank - 1 - hi)
  let modl := dim ^ (rank - 2 - lo)
  { dim := dim, p := t.p, var := cvar,
    x := (List.range (dim ^ cvar.length)).map (fun coord =>
      let coord1 := coord / modl
      let coord1rest := coord % modl
      let coord2 := coord1rest / modh
      let coord2rest := coord1rest % modh
      let coordTemplate := coord1 * modl * dim * dim + coord2 * modh * dim + coord2rest
      ((List.range dim).map
        (fun i => t.x.getD (coordTemplate + i * modl * dim + i * modh) 0)).sum) }

/-- `Mul<Tensor<T, V>> for Tensor<T, U>` from `tensor.rs` (the tensor
product): asserts equal points, result component at flat `coord` is
`self[coord / num_coords2] * rhs[coord % num_coords2]`. -/
def tensorMul (t1 t2 : Tensor) : Option Tensor :=
  if t1.p = t2.p then
    let jvar := joinedVariance t1.var t2.var
    let numCoords2 := t1.dim ^ t2.var.length
    some { dim := t1.dim, p := t1.p, var := jvar,
           x := (List.range (t1.dim ^ jvar.length)).map (fun coord =>
             t1.x.getD (coord / numCoords2) 0 * t2.x.getD (coord % numCoords2) 0) }
  else none

/-- `InnerProduct::inner_product` from `tensor.rs`: the fused
multiply-then-contract loop.  The three stride cases follow the source's
`match (indexl < u_rank, indexh < u_rank)`; the `(false, true)` arm of the
source is `unreachable!()` (it would need `hi < lo`). -/
def innerProduct (t1 t2 : Tensor) (lo hi : ℕ) : Option Tensor :=
  if t1.p = t2.p then
    let dim := t1.dim
    let uRank := t1.var.length
    let vRank := t2.var.length
    let cvar := contractedVariance (joinedVariance t1.var t2.var) lo hi
    let numCoordsResult := dim ^ cvar.length
    let mods : ℕ × ℕ × ℕ :=
      if hi < uRank then
        (dim ^ (uRank - 2 - lo), dim ^ (uRank - 1 - hi), dim ^ vRank)
      else if lo < uRank then
        (dim ^ (uRank - 1 - lo), dim ^ (uRank + vRank - 1 - hi), dim ^ (vRank - 1))
      else
        (dim ^ (uRank + vRank - 2 - lo), dim ^ (uRank + vRank - 1 - hi), dim ^ vRank)
    let modl := mods.1
    let modh := mods.2.1
    let modv := mods.2.2
    let templates : ℕ → ℕ × ℕ × ℕ × ℕ := fun coord =>
      if hi < uRank then
        let coords1 := coord / modv
        let coords2 := coord % modv
        let coords1part1 := coords1 / modl
        let coords1part2 := (coords1 % modl) / modh
        let coords1part3 := coords1 % modh
        (coords1part1 * modl * dim * dim + coords1part2 * modh * dim + coords1part3,
          coords2, modl + modh, 0)
      else if lo < uRank then
        let coords1 := coord / modv
        let coords2 := coord % modv
        let coords1part1 := coords1 / modl
        let coords1part2 := coords1 % modl
        let coords2part1 := coords2 / modh
        let coords2part2 := coords2 % modh
        (coords1part1 * modl * dim + coords1part2, coords2part1 * modh * dim + coords2part2,
          modl, modh)
      else
        let coords1 := coord / modv
        let coords2 := coord % modv
        let coords2part1 := coords2 / modl
        let coords2part2 := (coords2 % modl) / modh
        let coords2part3 := coords2 % modh
        (coords1,
          coords2part1 * modl * dim * dim + coords2part2 * modh * dim + coords2part3,
          0, modl + modh)
    some { dim := dim, p := t1.p, var := cvar,
           x := (List.range numCoordsResult).map (fun coord =>
             let q := templates coord
             ((List.range dim).map (fun k =>
               t1.x.getD (q.1 + k * q.2.2.1) 0 * t2.x.getD (q.2.1 + k * q.2.2.2) 0)).sum) }
  else none

/-- Matrix read used throughout `tensor.rs` for rank-2 tensors:
`self[&[i, j]]` is the flat entry `i * dim + j`. -/
def mget (m : List ℚ) (n i j : ℕ) : ℚ := m.getD (i * n + j) 0

/-- Matrix write for rank-2 tensors: `self[&[i, j]] = v`. -/
def mset (m : List ℚ) (n i j : ℕ) (v : ℚ) : List ℚ := m.set (i * n + j) v

/-- The row maximum scan of `lu_decompose`: `absmax` over column `j` of
`|self[[i, j]]|`, with the source's strict update
`if maxtemp > absmax { maxtemp } else { absmax }`. -/
def rowAbsMax (m : List ℚ) (n i : ℕ) : ℚ :=
  (List.range n).foldl (fun absmax j =>
    if absmax < |mget m n i j| then |mget m n i j| else absmax) 0

/-- The row-normalisation phase of `lu_decompose`, iterated over the rows
in `rows`: returns `none` (the source's early `return None`) as soon as a
row's maximal absolute entry is exactly `0`, otherwise the list of
reciprocals `1 / absmax`. -/
def rowNormsFrom (m : List ℚ) (n : ℕ) : List ℕ → Option (List ℚ)
  | [] => some []
  | i :: rest =>
    if rowAbsMax m n i = 0 then none
    else match rowNormsFrom m n rest with
      | none => none
      | some l => some (1 / rowAbsMax m n i :: l)

def rowNorms (m : List ℚ) (n : ℕ) : Option (List ℚ) := rowNormsFrom m n (List.range n)

/-- The pivot floor of `lu_decompose` (`absmin = 1.0e-30`). -/
def absmin : ℚ := 1 / 10 ^ 30

/-- State threaded through the column loop of `lu_decompose`: the matrix
being decomposed in place, the row norms, the permutation built so far,
and the mutable `max_row`, which the source declares outside the loop. -/
structure LUState where
  m : List ℚ
  rn : List ℚ
  perm : List ℕ
  maxRow : ℕ
deriving DecidableEq, Repr

/-- The body of the column loop `for j in 0..n` of `lu_decompose`:
eliminate above the diagonal, eliminate below while scanning for the
scaled pivot, conditionally swap rows (with the source's special case at
`j == n - 2` when `self[[j, j+1]] == 0`), record the permutation entry,
floor an exactly-zero pivot to `absmin`, then normalise the column below
the pivot. -/
def luStep (n : ℕ) (s : LUState) (j : ℕ) : LUState :=
  let m1 := (List.range j).foldl (fun m i =>
    (List.range i).foldl (fun m k =>
      mset m n i j (mget m n i j - mget m n i k * mget m n k j)) m) s.m
  let lower := (List.range (n - j)).foldl (fun st di =>
    let i := j + di
    let m := (List.range j).foldl (fun m k =>
      mset m n i j (mget m n i j - mget m n i k * mget m n k j)) st.1
    let maxtemp := |mget m n i j| * s.rn.getD i 0
    if st.2.1 < maxtemp then (m, maxtemp, i) else (m, st.2.1, st.2.2)) (m1, 0, s.maxRow)
  let m2 := lower.1
  let mr := lower.2.2
  let afterSwap : List ℚ × List ℚ × ℕ :=
    if mr ≠ j then
      if j = n - 2 ∧ mget m2 n j (j + 1) = 0 then (m2, s.rn, j)
      else
        let mSwapped := (List.range n).foldl (fun m k =>
          let maxtemp := mget m n j k
          mset (mset m n j k (mget m n mr k)) n mr k maxtemp) m2
        (mSwapped, s.rn.set mr (s.rn.getD j 0), mr)
    else (m2, s.rn, mr)
  let m3 := afterSwap.1
  let rn3 := afterSwap.2.1
  let mr3 := afterSwap.2.2
  let m4 := if mget m3 n j j = 0 then mset m3 n j j absmin else m3
  let m5 := if j ≠ n - 1 then
      (List.range (n - (j + 1))).foldl (fun m di =>
        let i := j + 1 + di
        mset m n i j (mget m n i j * (1 / mget m4 n j j))) m4
    else m4
  ⟨m5, rn3, s.perm ++ [mr3], mr3⟩

/-- `Tensor::lu_decompose` from `tensor.rs`: LU decomposition in place
with partial pivoting; `none` exactly when a row's maximal absolute entry
is `0` in the initial row scan. -/
def lu_decompose (n : ℕ) (m : List ℚ) : Option (List ℚ × List ℕ) :=
  match rowNorms m n with
  | none => none
  | some rn =>
    let s := (List.range n).foldl (luStep n) ⟨m, rn, [], 0⟩
    some (s.m, s.perm)

/-- `Tensor::lu_substitution` from `tensor.rs`: forward substitution
(applying the permutation, with the inner loop over `(0..i).rev()`), then
backward substitution dividing by the diagonal. -/
def lu_substitution (n : ℕ) (m b : List ℚ) (permute : List ℕ) : List ℚ :=
  let fwd := (List.range n).foldl (fun result i =>
    let pi := permute.getD i 0
    let tmp := result.getD pi 0
    let result := result.set pi (result.getD i 0)
    let tmp := ((List.range i).reverse).foldl
      (fun tmp j => tmp - mget m n i j * result.getD j 0) tmp
    result.set i tmp) b
  ((List.range n).reverse).foldl (fun result i =>
    let result := (List.range (n - (i + 1))).foldl (fun result dj =>
      let j := i + 1 + dj
      result.set i (result.getD i 0 - mget m n i j * result.getD j 0)) result
    result.set i (result.getD i 0 / mget m n i i)) fwd

/-- `Tensor::inverse` from `tensor.rs`: `none` when `lu_decompose` is
`none`; otherwise each standard basis vector is substituted to produce one
column of the inverse (`result[[k, i]] = x[k]`), and the result's slot
kinds are flipped (`(Ul::Output, Ur::Output)` via `OtherIndex`). -/
def tensorInverse (t : Tensor) : Option Tensor :=
  let n := t.dim
  match lu_decompose n t.x with
  | none => none
  | some q =>
    some { dim := n, p := t.p, var := t.var.map otherIndex,
           x := (List.range (n ^ 2)).map (fun c =>
             let k := c / n
             let i := c % n
             (lu_substitution n q.1
               ((List.range n).map (fun r => if r = i then 1 else 0)) q.2).getD k 0) }

/-- `Tensor::unit` from `tensor.rs`: starts from `zero(p)` and sets the
diagonal entries `[i, i]` to `1`. -/
def unitT (dim : ℕ) (point : List ℚ) (v : List IndexType) : Tensor :=
  { dim := dim, p := point, var := v,
    x := (List.range dim).foldl (fun x i => x.set (i * dim + i) 1)
      (List.replicate (dim ^ v.length) 0) }

/-- `Tensor::transpose` from `tensor.rs`: `result[[c1, c0]] = self[[c0, c1]]`
for a rank-2 tensor, with the two variance slots swapped. -/
def transposeT (t : Tensor) : Tensor :=
  { dim := t.dim, p := t.p,
    var := [t.var.getD 1 IndexType.Covariant, t.var.getD 0 IndexType.Covariant],
    x := (List.range (t.dim ^ 2)).map (fun c =>
      t.x.getD ((c % t.dim) * t.dim + c / t.dim) 0) }

/-- `ConversionTo::jacobian` from `coordinates.rs`, over a user-supplied
point conversion `cp` (`convert_point`) and step function `small`: for each
source axis `j`, set `x[j] = x[j] - h`, convert to get `y1`, then
`x[j] = x[j] + h * 2.0`, convert to get `y2`, and fill
`result[[i, j]] = (y2[i] - y1[i]) / (2.0 * h)`.  The result is a
`Matrix` (contravariant/covariant) anchored at `convert_point(p)`. -/
def jacobian (dim : ℕ) (cp : List ℚ → List ℚ) (small : List ℚ → ℚ) (p : List ℚ) : Tensor :=
  let h := small p
  { dim := dim, p := cp p,
    var := [IndexType.Contravariant, IndexType.Covariant],
    x := (List.range (dim ^ 2)).map (fun c =>
      let i := c / dim
      let j := c % dim
      let x1 := p.set j (p.getD j 0 - h)
      let y1 := cp x1
      let x2 := x1.set j (x1.getD j 0 + h * 2)
      let y2 := cp x2
      (y2.getD i 0 - y1.getD i 0) / (2 * h)) }

/-- `ConversionTo::inv_jacobian` from `coordinates.rs` computes
`jacobian(p).inverse().unwrap()`: this is the argument of that `unwrap`.
When it is `none` the source aborts with a panic instead of returning. -/
def inv_jacobian (dim : ℕ) (cp : List ℚ → List ℚ) (small : List ℚ → ℚ) (p : List ℚ) :
    Option Tensor :=
  tensorInverse (jacobian dim cp small p)

/-- `CoordIterator` from `tensor.rs`: the sequence of all multi-indices of
a given rank over `[0, dim)`, starting at the all-zero index and
incrementing the last slot fastest.  For rank 0 it yields exactly the
empty index. -/
def allIdx (dim : ℕ) : ℕ → List (List ℕ)
  | 0 => [[]]
  | rank + 1 => (List.range dim).flatMap (fun i => (allIdx dim rank).map (fun a => i :: a))

/-- `Tensor::convert` from `tensor.rs`: anchors the result at
`convert_point(p)`, computes the Jacobian and (unwrapped) inverse
Jacobian, then for every result multi-index `i` sums over every source
multi-index `j` the product of `self[j]` with, per slot `k`, the
inverse-Jacobian entry `[i[k], j[k]]` for a covariant slot or the Jacobian
entry for a contravariant slot.  The `unwrap` panic on a singular Jacobian
is modelled by `none`. -/
def convert (cp : List ℚ → List ℚ) (small : List ℚ → ℚ) (t : Tensor) : Option Tensor :=
  let jac := jacobian t.dim cp small t.p
  match tensorInverse jac with
  | none => none
  | some invJac =>
    let d := t.dim
    let rank := t.var.length
    some { dim := d, p := cp t.p, var := t.var,
           x := (allIdx d rank).map (fun i =>
             ((allIdx d rank).map (fun j =>
               t.x.getD (flattenL d j) 0 *
                 ((List.range rank).map (fun k =>
                   match t.var.getD k IndexType.Covariant with
                   | IndexType.Covariant =>
                       invJac.x.getD (i.getD k 0 * d + j.getD k 0) 0
                   | IndexType.Contravariant =>
                       jac.x.getD (i.getD k 0 * d + j.getD k 0) 0)).prod)).sum) }

theorem getD_replicate {α : Type} (n k : ℕ) (a d : α) (hk : k < n) :
    (List.replicate n a).getD k d = a := by
  rw [List.getD_eq_getElem?_getD, List.getElem?_replicate, if_pos hk]
  rfl

theorem range_map_getD {α : Type} (l : List α) (d : α) :
    (List.range l.length).map (fun i => l.getD i d) = l := by
  apply List.ext_getElem
  · simp
  · intro k h1 h2
    simp only [List.getElem_map, List.getElem_range]
    rw [List.getD_eq_getElem?_getD, List.getElem?_eq_getElem h2]
    rfl

/-- C5: the flat offset computed by `get_coord` for a valid multi-index
equals the row-major flattening `Σ_k i_k · dim^(rank-1-k)` (last index
fastest); a multi-index of the wrong length or with a component `≥ dim`
fails fast (`none`, an assertion failure in the source). -/
theorem c5_get_coord_spec (dim rank : ℕ) (i : List ℕ) :
    get_coord dim rank i
      = if i.length = rank ∧ ∀ idx ∈ i, idx < dim then
          some (((List.range i.length).map (fun k => i.getD k 0 * dim ^ (rank - 1 - k))).sum)
        else none := by
  unfold get_coord
  split
  · next h =>
    rw [flattenL_eq_sum, h.1]
  · rfl

/-- C10: every tensor operation preserves the anchoring point: the
arithmetic operators keep the receiver's point, and `trace`, the tensor
product, `inner_product`, `transpose`, `unit`, `inverse` anchor their
result at the operand's point; `convert` alone anchors at the converted
point. -/
theorem c10_point_preservation (A B : Tensor) (s : ℚ) (lo hi : ℕ)
    (d : ℕ) (pt : List ℚ) (v : List IndexType)
    (cp : List ℚ → List ℚ) (small : List ℚ → ℚ) :
    ((addT A B).elim True (fun C => C.p = A.p))
    ∧ ((subT A B).elim True (fun C => C.p = A.p))
    ∧ (scaleT A s).p = A.p
    ∧ (divT A s).p = A.p
    ∧ (trace A lo hi).p = A.p
    ∧ ((tensorMul A B).elim True (fun C => C.p = A.p))
    ∧ ((innerProduct A B lo hi).elim True (fun C => C.p = A.p))
    ∧ (transposeT A).p = A.p
    ∧ (unitT d pt v).p = pt
    ∧ ((tensorInverse A).elim True (fun C => C.p = A.p))
    ∧ ((convert cp small A).elim True (fun C => C.p = cp A.p)) := by
  refine ⟨?_, ?_, rfl, rfl, rfl, ?_, ?_, rfl, rfl, ?_, ?_⟩
  · unfold addT; split <;> simp
  · unfold subT; split <;> simp
  · unfold tensorMul; split <;> simp
  · unfold innerProduct; split <;> simp
  · cases h : lu_decompose A.dim A.x <;> simp [tensorInverse, h]
  · cases h : tensorInverse (jacobian A.dim cp small A.p) <;> simp [convert, h]

/-- C9: addition of compatible tensors (equal shape, anchored at the same
point) is associative and commutative and has the zero tensor as neutral
element, where `==` is the componentwise `equals` (equal points, equal
components). -/
theorem c9_add_algebra (A B C : Tensor)
    (hpAB : A.p = B.p) (hpBC : B.p = C.p)
    (hdAB : B.dim = A.dim) (hdBC : C.dim = A.dim)
    (hvAB : B.var = A.var) (hvBC : C.var = A.var)
    (hxA : A.x.length = A.dim ^ A.var.length) :
    (∀ t u, (addT A B).bind (fun ab => addT ab C) = some t →
      (addT B C).bind (fun bc => addT A bc) = some u → equalsT t u)
    ∧ (∀ t u, addT A B = some t → addT B A = some u → equalsT t u)
    ∧ (∀ t, addT A (zeroT A.dim A.p A.var) = some t → equalsT t A) := by
  have hAB : A.p = B.p := hpAB
  have hAC : A.p = C.p := hpAB.trans hpBC
  refine ⟨?_, ?_, ?_⟩
  · intro t u ht hu
    simp only [addT, if_pos hAB, Option.some_bind, if_pos hAC, if_pos hpBC,
      Option.some_bind] at ht hu
    injection ht with ht
    injection hu with hu
    subst ht hu
    refine ⟨rfl, ?_⟩
    simp only [hdBC, hvBC, hdAB, hvAB]
    apply List.map_congr_left
    intro k hk
    rw [List.mem_range] at hk
    rw [getD_range_map _ _ _ _ hk, getD_range_map _ _ _ _ hk]
    ring
  · intro t u ht hu
    simp only [addT, if_pos hAB, if_pos hAB.symm] at ht hu
    injection ht with ht
    injection hu with hu
    subst ht hu
    refine ⟨hAB, ?_⟩
    simp only [hdAB, hvAB]
    apply List.map_congr_left
    intro k _
    ring
  · intro t ht
    simp only [addT, zeroT, if_pos rfl] at ht
    injection ht with ht
    subst ht
    refine ⟨rfl, ?_⟩
    calc (List.range (A.dim ^ A.var.length)).map
          (fun i => A.x.getD i 0 + (List.replicate (A.dim ^ A.var.length) (0:ℚ)).getD i 0)
        = (List.range (A.dim ^ A.var.length)).map (fun i => A.x.getD i 0) := by
          apply List.map_congr_left
          intro k hk
          rw [List.mem_range] at hk
          rw [getD_replicate _ _ _ _ hk]
          simp
      _ = A.x := by rw [← hxA, range_map_getD]

theorem getD_set_self (l : List ℚ) (j : ℕ) (v d : ℚ) (hj : j < l.length) :
    (l.set j v).getD j d = v := by
  rw [List.getD_eq_getElem?_getD, List.getElem?_set_eq_of_lt v hj]
  rfl

/-- C6: the tensor product of `A` (rank m) and `B` (rank n) at equal
points has rank `m + n`, variance `A`'s followed by `B`'s, is anchored at
the common point, and its component at the multi-index `a ++ b` is
`A[a] * B[b]`; at different points the operation fails fast (an assertion
in the source, `none` here). -/
theorem c6_mul_spec (t1 t2 : Tensor) (a b : List ℕ)
    (ha : a.length = t1.var.length) (hav : ∀ x ∈ a, x < t1.dim)
    (hb : b.length = t2.var.length) (hbv : ∀ x ∈ b, x < t1.dim) :
    (t1.p = t2.p →
      (tensorMul t1 t2).map Tensor.var = some (t1.var ++ t2.var)
      ∧ (tensorMul t1 t2).map Tensor.p = some t1.p
      ∧ (tensorMul t1 t2).map (fun r => r.x.getD (flattenL t1.dim (a ++ b)) 0)
          = some (t1.x.getD (flattenL t1.dim a) 0 * t2.x.getD (flattenL t1.dim b) 0))
    ∧ (t1.p ≠ t2.p → tensorMul t1 t2 = none) := by
  constructor
  · intro hp
    have hvalid : ∀ x ∈ a ++ b, x < t1.dim := by
      intro x hx
      rcases List.mem_append.mp hx with h | h
      · exact hav x h
      · exact hbv x h
    have hlt : flattenL t1.dim (a ++ b)
        < t1.dim ^ (joinedVariance t1.var t2.var).length := by
      have h0 := flattenL_lt t1.dim (a ++ b) hvalid
      rw [List.length_append, ha, hb] at h0
      simpa [joinedVariance, List.length_append] using h0
    refine ⟨?_, ?_, ?_⟩
    · simp only [tensorMul, if_pos hp, Option.map_some']
      rfl
    · simp only [tensorMul, if_pos hp, Option.map_some']
    · simp only [tensorMul, if_pos hp, Option.map_some']
      rw [getD_range_map _ _ _ _ hlt]
      rw [← hb, flattenL_append_div t1.dim a b hbv, flattenL_append_mod t1.dim a b hbv]
  · intro hp
    simp [tensorMul, hp]

/-- A concrete rank-1 tensor (contravariant, dimension 2) for witnesses. -/
def Wt1 : Tensor := ⟨2, [1, 2], [IndexType.Contravariant], [5, 6]⟩

/-- A concrete rank-1 tensor (covariant, dimension 2) at the same point. -/
def Wt2 : Tensor := ⟨2, [1, 2], [IndexType.Covariant], [7, 9]⟩

/-- Witness for C6 at a concrete input: the product of the vector `(5, 6)`
and the covector `(7, 9)` has component `6 * 7 = 42` at the multi-index
`(1, 0)`. -/
theorem c6_mul_spec_witness :
    (tensorMul Wt1 Wt2).map (fun r => r.x.getD (flattenL 2 ([1] ++ [0])) 0) = some 42 := by
  have h := ((c6_mul_spec Wt1 Wt2 [1] [0] rfl (by decide) rfl (by decide)).1 rfl).2.2
  rw [show Wt1.dim = 2 from rfl] at h
  rw [h]
  norm_num [Wt1, Wt2, flattenL]

/-- C7: each Jacobian entry `[i, j]` is the central difference
`(convertPoint(p with p[j] + h)[i] - convertPoint(p with p[j] - h)[i]) / (2h)`
with `h = small(p)`; the argument passed to `convertPoint` differs from `p`
only in coordinate `j`. -/
theorem c7_jacobian_spec (dim : ℕ) (cp : List ℚ → List ℚ) (small : List ℚ → ℚ)
    (p : List ℚ) (hp : p.length = dim) (i j : ℕ) (hi : i < dim) (hj : j < dim) :
    (jacobian dim cp small p).x.getD (i * dim + j) 0
      = ((cp (p.set j (p.getD j 0 + small p))).getD i 0
          - (cp (p.set j (p.getD j 0 - small p))).getD i 0) / (2 * small p) := by
  have hdim0 : 0 < dim := Nat.lt_of_le_of_lt (Nat.zero_le _) hj
  have hlt : i * dim + j < dim ^ 2 := by
    have h1 : (i + 1) * dim ≤ dim * dim := Nat.mul_le_mul_right dim hi
    have h2 : i * dim + j < (i + 1) * dim := by
      rw [Nat.succ_mul]
      omega
    rw [pow_two]
    omega
  have hdiv : (i * dim + j) / dim = i := by
    rw [Nat.mul_comm, Nat.mul_add_div hdim0, Nat.div_eq_of_lt hj, Nat.add_zero]
  have hmod : (i * dim + j) % dim = j := by
    rw [Nat.mul_comm, Nat.mul_add_mod, Nat.mod_eq_of_lt hj]
  have hjp : j < p.length := by rw [hp]; exact hj
  simp only [jacobian]
  rw [getD_range_map _ _ _ _ hlt, hdiv, hmod, List.set_set,
    getD_set_self p j (p.getD j 0 - small p) 0 hjp]
  have harg : p.getD j 0 - small p + small p * 2 = p.getD j 0 + small p := by ring
  rw [harg]

/-- Witness for C7 at a concrete input: the identity conversion in
dimension 1 at the point `(3)` has Jacobian entry `[0, 0] = 1`. -/
theorem c7_jacobian_spec_witness :
    (jacobian 1 (fun q => q) (fun q => 1 / 100) [3]).x.getD (0 * 1 + 0) 0 = 1 := by
  have h := c7_jacobian_spec 1 (fun q => q) (fun q => 1 / 100) [3] rfl 0 0
    (by decide) (by decide)
  rw [h]
  norm_num

theorem rowAbsMax_eq_zero (m : List ℚ) (n i : ℕ)
    (h : ∀ j, j < n → m.getD (i * n + j) 0 = 0) : rowAbsMax m n i = 0 := by
  unfold rowAbsMax
  have haux : ∀ l : List ℕ, (∀ j ∈ l, j < n) →
      l.foldl (fun absmax j =>
        if absmax < |mget m n i j| then |mget m n i j| else absmax) 0 = 0 := by
    intro l
    induction l with
    | nil => intro _; rfl
    | cons a l ih =>
      intro hl
      rw [List.foldl_cons]
      have hz : mget m n i a = 0 := h a (hl a (by simp))
      rw [hz]
      simp only [abs_zero, lt_irrefl, if_false]
      exact ih (fun j hj => hl j (by simp [hj]))
  exact haux (List.range n) (fun j hj => List.mem_range.mp hj)

theorem rowNormsFrom_eq_none (m : List ℚ) (n : ℕ) (l : List ℕ) (i : ℕ)
    (hi : i ∈ l) (h : rowAbsMax m n i = 0) : rowNormsFrom m n l = none := by
  induction l with
  | nil => cases hi
  | cons a l ih =>
    unfold rowNormsFrom
    by_cases ha : rowAbsMax m n a = 0
    · rw [if_pos ha]
    · rw [if_neg ha]
      have hil : i ∈ l := by
        rcases List.mem_cons.mp hi with h1 | h1
        · exact absurd (h1 ▸ h) ha
        · exact h1
      rw [ih hil]

/-- C3 (amended): `inverse` returns `none` for every rank-2 tensor with an
all-zero row (in particular the all-zero matrix): the row-normalisation
scan of `lu_decompose` finds `absmax == 0` and returns early. -/
theorem c3_zero_row_none (t : Tensor) (i : ℕ) (hi : i < t.dim)
    (hrow : ∀ j, j < t.dim → t.x.getD (i * t.dim + j) 0 = 0) :
    tensorInverse t = none := by
  have hnone : lu_decompose t.dim t.x = none := by
    unfold lu_decompose rowNorms
    rw [rowNormsFrom_eq_none t.x t.dim (List.range t.dim) i (List.mem_range.mpr hi)
      (rowAbsMax_eq_zero t.x t.dim i hrow)]
  simp [tensorInverse, hnone]

/-- Witness for the amended C3: the all-zero 2×2 mixed-variance tensor is
not invertible (`none`). -/
theorem c3_zero_row_none_witness :
    tensorInverse ⟨2, [0, 0], [IndexType.Contravariant, IndexType.Covariant], [0, 0, 0, 0]⟩
      = none := by
  apply c3_zero_row_none _ 0 (by decide)
  intro j hj
  interval_cases j <;> rfl

/-- The singular (equal-rows) matrix `[[1, 1], [1, 1]]` as a
mixed-variance rank-2 tensor. -/
def Msing : Tensor := ⟨2, [0, 0], [IndexType.Contravariant, IndexType.Covariant], [1, 1, 1, 1]⟩

/-- C3 counterexample: `Msing` has determinant `1·1 - 1·1 = 0`, hence is
singular, yet `inverse` does not return `none`: it returns a tensor that
is not an inverse — the `(1, 0)` entry of `Msing · inverse(Msing)` is
`1`, where a true inverse would give `0`. -/
theorem c3_singular_counterexample :
    mget Msing.x 2 0 0 * mget Msing.x 2 1 1 - mget Msing.x 2 0 1 * mget Msing.x 2 1 0 = 0
    ∧ tensorInverse Msing ≠ none
    ∧ (tensorInverse Msing).elim False (fun t =>
        mget Msing.x 2 1 0 * mget t.x 2 0 0 + mget Msing.x 2 1 1 * mget t.x 2 1 0 = 1) := by
  have hinv : tensorInverse Msing
      = some ⟨2, [0, 0], [IndexType.Covariant, IndexType.Contravariant], [0, 1, 1, -1]⟩ := by
    norm_num [tensorInverse, lu_decompose, rowNorms, rowNormsFrom, rowAbsMax, mget, mset,
      luStep, absmin, lu_substitution, Msing, List.range_succ, otherIndex]
  refine ⟨by norm_num [mget, Msing], ?_, ?_⟩
  · rw [hinv]
    intro h
    exact Option.noConfusion h
  · rw [hinv]
    norm_num [mget, Msing]

/-- C4: at a point where the numerically computed Jacobian is singular
(here: a conversion whose `convert_point` is constant, so the Jacobian is
the zero matrix), the value the source immediately `unwrap`s in
`inv_jacobian` is `none` — so the call aborts with a panic instead of
propagating a checkable "no inverse" to the caller. -/
theorem c4_inv_jacobian_eval :
    inv_jacobian 2 (fun _ => [0, 0]) (fun _ => 1 / 100) [0, 0] = none := by
  show tensorInverse (jacobian 2 (fun _ => [0, 0]) (fun _ => 1 / 100) [0, 0]) = none
  apply c3_zero_row_none _ 0 (by decide)
  intro j hj
  have hj2 : j < 2 := hj
  interval_cases j <;>
    norm_num [jacobian, List.range_succ]

/-- The rank-2 mixed-variance tensor `[[0, 0], [1, 0]]` used to expose the
fused inner-product stride bug. -/
def Aex : Tensor := ⟨2, [0, 0], [IndexType.Contravariant, IndexType.Covariant], [0, 0, 1, 0]⟩

/-- The rank-1 contravariant tensor `(1, 1)` at the same point. -/
def Bex : Tensor := ⟨2, [0, 0], [IndexType.Contravariant], [1, 1]⟩

/-- C1 fails on the code: with both contraction positions inside `A`'s
slot range (`lo = 0`, `hi = 1`, both of opposite kinds in `A`'s variance),
the fused loop of `inner_product` advances the `A`-side offset by
`modl + modh = dim^(m-2-lo) + dim^(m-1-hi)` per summand, where the
contraction semantics of `trace` advance by `modl·dim + modh`; at
`A = [[0, 0], [1, 0]]`, `B = (1, 1)` the fused pass sums
`A[0,0] + A[1,0] = 1` per component while `trace(A ⊗ B, 0, 1)` sums the
diagonal `A[0,0] + A[1,1] = 0`, so the two results differ. -/
theorem c1_inner_product_eval :
    innerProduct Aex Bex 0 1 ≠ (tensorMul Aex Bex).map (fun t => trace t 0 1) := by
  have h1 : innerProduct Aex Bex 0 1
      = some ⟨2, [0, 0], [IndexType.Contravariant], [1, 1]⟩ := by
    norm_num [innerProduct, Aex, Bex, contractedVariance, joinedVariance, List.range_succ]
  have h2 : (tensorMul Aex Bex).map (fun t => trace t 0 1)
      = some ⟨2, [0, 0], [IndexType.Contravariant], [0, 0]⟩ := by
    norm_num [tensorMul, trace, Aex, Bex, contractedVariance, joinedVariance, List.range_succ]
  rw [h1, h2]
  simp

theorem insertIdx_eq_take_cons_drop {α : Type} (l : List α) (n : ℕ) (x : α)
    (h : n ≤ l.length) : l.insertIdx n x = l.take n ++ x :: l.drop n := by
  induction l generalizing n with
  | nil =>
    have h0 : n = 0 := by simpa using h
    subst h0
    rfl
  | cons b l ih =>
    cases n with
    | zero => rfl
    | succ n =>
      rw [List.insertIdx_succ_cons, List.take_succ_cons, List.drop_succ_cons,
        ih n (by simpa using h)]
      rfl

theorem flattenL_insert2 (d i : ℕ) (a mm tt : List ℕ) :
    flattenL d (a ++ i :: (mm ++ i :: tt))
      = flattenL d a * d ^ (2 + mm.length + tt.length)
        + i * d ^ (1 + mm.length + tt.length)
        + flattenL d mm * d ^ (1 + tt.length)
        + i * d ^ tt.length
        + flattenL d tt := by
  rw [flattenL_append, flattenL_cons, flattenL_append, flattenL_cons]
  simp only [List.length_cons, List.length_append]
  ring

/-- C2: `trace` on a tensor of rank `r` at opposite-kind positions
`lo < hi` returns a tensor of rank `r - 2`, and its component at every
result multi-index `c` is the sum, over `i` in `[0, dim)`, of the source
component at the multi-index obtained by inserting `i` back at positions
`lo` and `hi`. -/
theorem c2_trace_spec (t : Tensor) (lo hi : ℕ) (hlh : lo < hi) (hhr : hi < t.var.length)
    (hkinds : t.var.getD lo IndexType.Covariant ≠ t.var.getD hi IndexType.Covariant)
    (c : List ℕ) (hc : c.length = t.var.length - 2) (hcv : ∀ x ∈ c, x < t.dim) :
    (trace t lo hi).var.length = t.var.length - 2
    ∧ (trace t lo hi).x.getD (flattenL t.dim c) 0
        = ((List.range t.dim).map
            (fun i => t.x.getD (flattenL t.dim ((c.insertIdx lo i).insertIdx hi i)) 0)).sum := by
  have hlen2 : (contractedVariance t.var lo hi).length = t.var.length - 2 := by
    unfold contractedVariance
    rw [List.length_eraseIdx_of_lt, List.length_eraseIdx_of_lt hhr]
    · omega
    · rw [List.length_eraseIdx_of_lt hhr]
      omega
  refine ⟨hlen2, ?_⟩
  have hr2 : lo ≤ c.length := by omega
  set r := t.var.length with hr
  set d := t.dim with hd
  set a := c.take lo with hadef
  set rest := c.drop lo with hrestdef
  set mm := rest.take (hi - 1 - lo) with hmmdef
  set tt := rest.drop (hi - 1 - lo) with httdef
  have hsplit0 : mm ++ tt = rest := List.take_append_drop _ rest
  have hsplit1 : c = a ++ (mm ++ tt) := by rw [hsplit0, hadef, hrestdef, List.take_append_drop]
  have ha : a.length = lo := by rw [hadef, List.length_take]; omega
  have hrest : rest.length = r - 2 - lo := by rw [hrestdef, List.length_drop, hc]
  have hm : mm.length = hi - 1 - lo := by rw [hmmdef, List.length_take]; omega
  have htt : tt.length = r - 1 - hi := by rw [httdef, List.length_drop]; omega
  have hmtv : ∀ x ∈ mm ++ tt, x < d := by
    rw [hsplit0]
    intro x hx
    exact hcv x (List.drop_subset _ _ hx)
  have httv : ∀ x ∈ tt, x < d := fun x hx => hmtv x (List.mem_append.mpr (Or.inr hx))
  have hlen3 : (mm ++ tt).length = r - 2 - lo := by
    rw [List.length_append, hm, htt]
    omega
  have hc' : flattenL d c = flattenL d (a ++ (mm ++ tt)) := by rw [← hsplit1]
  have hA : flattenL d c / d ^ (r - 2 - lo) = flattenL d a := by
    rw [hc', ← hlen3]
    exact flattenL_append_div d a (mm ++ tt) hmtv
  have hRest : flattenL d c % d ^ (r - 2 - lo) = flattenL d (mm ++ tt) := by
    rw [hc', ← hlen3]
    exact flattenL_append_mod d a (mm ++ tt) hmtv
  have hM : flattenL d (mm ++ tt) / d ^ (r - 1 - hi) = flattenL d mm := by
    rw [← htt]
    exact flattenL_append_div d mm tt httv
  have hT : flattenL d (mm ++ tt) % d ^ (r - 1 - hi) = flattenL d tt := by
    rw [← htt]
    exact flattenL_append_mod d mm tt httv
  have hins : ∀ i : ℕ, (c.insertIdx lo i).insertIdx hi i = a ++ i :: (mm ++ i :: tt) := by
    intro i
    have h1 : c.insertIdx lo i = a ++ i :: rest := by
      rw [insertIdx_eq_take_cons_drop c lo i hr2]
    have hlar : (a ++ i :: rest).length = r - 1 := by
      rw [List.length_append, List.length_cons, ha, hrest]
      omega
    rw [h1, insertIdx_eq_take_cons_drop _ hi i (by rw [hlar]; omega)]
    rw [List.take_append_eq_append_take, List.drop_append_eq_append_drop]
    rw [List.take_of_length_le (by rw [ha]; omega), List.drop_eq_nil_of_le (by rw [ha]; omega)]
    have hhl : hi - a.length = mm.length + 1 := by rw [ha, hm]; omega
    rw [hhl]
    rw [List.take_succ_cons, List.drop_succ_cons]
    rw [← hsplit0, List.take_left, List.drop_left]
    simp
  have hflt : flattenL d c < d ^ (r - 2) := by
    have h0 := flattenL_lt d c hcv
    rwa [hc] at h0
  simp only [trace]
  rw [hlen2, getD_range_map _ _ _ _ hflt]
  apply congrArg List.sum
  apply List.map_congr_left
  intro i _
  congr 1
  rw [hins i, flattenL_insert2, hA, hRest, hM, hT]
  have e1 : (2 : ℕ) + mm.length + tt.length = (r - 2 - lo) + 2 := by
    rw [hm, htt]
    omega
  have e2 : (1 : ℕ) + mm.length + tt.length = (r - 2 - lo) + 1 := by
    rw [hm, htt]
    omega
  have e3 : (1 : ℕ) + tt.length = (r - 1 - hi) + 1 := by
    rw [htt]
    omega
  rw [e1, e2, e3, htt]
  ring

/-- The mixed-variance 2×2 tensor `[[1, 2], [3, 4]]` for witnesses. -/
def T22 : Tensor := ⟨2, [0, 0], [IndexType.Contravariant, IndexType.Covariant], [1, 2, 3, 4]⟩

/-- Witness for C2 at a concrete input: contracting both slots of
`[[1, 2], [3, 4]]` gives the sum of the diagonal, `1 + 4 = 5`. -/
theorem c2_trace_spec_witness :
    (trace T22 0 1).x.getD (flattenL 2 ([] : List ℕ)) 0
      = ((List.range 2).map
          (fun i => T22.x.getD (flattenL 2 ((([] : List ℕ).insertIdx 0 i).insertIdx 1 i)) 0)).sum
    ∧ (trace T22 0 1).x.getD (flattenL 2 ([] : List ℕ)) 0 = 5 := by
  have h := (c2_trace_spec T22 0 1 (by decide) (by decide) (by decide) [] (by decide)
    (by decide)).2
  refine ⟨h, ?_⟩
  rw [show T22.dim = 2 from rfl] at h
  rw [h]
  norm_num [T22, flattenL, List.range_succ]

theorem getD_range (n k : ℕ) (hk : k < n) : (List.range n).getD k 0 = k := by
  rw [List.getD_eq_getElem?_getD, List.getElem?_range hk]
  rfl

theorem allIdx_length (d r : ℕ) : (allIdx d r).length = d ^ r := by
  induction r with
  | zero => rfl
  | succ r ih =>
    show ((List.range d).flatMap (fun i => (allIdx d r).map (fun a => i :: a))).length = _
    rw [List.length_flatMap]
    have h1 : List.map (List.length ∘ fun i => (allIdx d r).map (fun a => i :: a))
        (List.range d) = List.map (fun _ => d ^ r) (List.range d) := by
      apply List.map_congr_left
      intro q _
      simp [ih]
    rw [h1, List.map_const', List.sum_replicate, smul_eq_mul, List.length_range, pow_succ]
    ring

theorem flatMap_getElem_blocks {α β : Type} (l : List α) (f : α → List β) (L n j : ℕ)
    (a0 : α) (hL : ∀ a ∈ l, (f a).length = L) (hn : n < l.length) (hj : j < L) :
    (l.flatMap f)[n * L + j]? = (f (l.getD n a0))[j]? := by
  induction l generalizing n with
  | nil => simp at hn
  | cons b bs ih =>
    cases n with
    | zero =>
      rw [List.flatMap_cons, Nat.zero_mul, Nat.zero_add, List.getD_cons_zero]
      rw [List.getElem?_append, hL b (by simp), if_pos hj]
    | succ n =>
      have hLle : L ≤ (n + 1) * L := by
        calc L = 1 * L := (Nat.one_mul L).symm
        _ ≤ (n + 1) * L := Nat.mul_le_mul_right L (by omega)
      rw [List.flatMap_cons, List.getD_cons_succ]
      rw [List.getElem?_append_right (by rw [hL b (by simp)]; omega)]
      rw [hL b (by simp)]
      have harith : (n + 1) * L + j - L = n * L + j := by
        have hd : (n + 1) * L = n * L + L := by ring
        omega
      rw [harith]
      exact ih n (fun a ha => hL a (by simp [ha])) (by simpa using hn)

theorem allIdx_getElem (d r : ℕ) (i : List ℕ) (hlen : i.length = r)
    (hv : ∀ x ∈ i, x < d) : (allIdx d r)[flattenL d i]? = some i := by
  induction r generalizing i with
  | zero =>
    have h0 : i = [] := List.length_eq_zero.mp hlen
    subst h0
    rfl
  | succ r ih =>
    cases i with
    | nil => simp at hlen
    | cons x tl =>
      have hx : x < d := hv x (by simp)
      have htl : ∀ y ∈ tl, y < d := fun y hy => hv y (by simp [hy])
      have htlen : tl.length = r := by simpa using hlen
      have hfl : flattenL d tl < d ^ r := by
        have h0 := flattenL_lt d tl htl
        rwa [htlen] at h0
      show ((List.range d).flatMap
        (fun q => (allIdx d r).map (fun a => q :: a)))[flattenL d (x :: tl)]? = some (x :: tl)
      rw [flattenL_cons, htlen]
      rw [flatMap_getElem_blocks (List.range d) _ (d ^ r) x (flattenL d tl) 0
        (fun a _ => by rw [List.length_map, allIdx_length]) (by simpa using hx) hfl]
      rw [getD_range d x hx, List.getElem?_map, ih tl htlen htl]
      rfl

theorem allIdx_map_getD (d r : ℕ) (g : List ℕ → ℚ) (i : List ℕ) (hlen : i.length = r)
    (hv : ∀ x ∈ i, x < d) : ((allIdx d r).map g).getD (flattenL d i) 0 = g i := by
  rw [List.getD_eq_getElem?_getD, List.getElem?_map, allIdx_getElem d r i hlen hv]
  rfl

/-- C8: when the Jacobian at the tensor's point is invertible, `convert`
returns a tensor anchored at the converted point with the variance
preserved slot-for-slot, whose component at every result multi-index `i`
is the sum over every source multi-index `j` of the source component at
`j` times, per slot `k`, the Jacobian entry at `(i[k], j[k])` for a
contravariant slot or the inverse-Jacobian entry for a covariant slot. -/
theorem c8_convert_spec (cp : List ℚ → List ℚ) (small : List ℚ → ℚ) (t invJ : Tensor)
    (hinv : tensorInverse (jacobian t.dim cp small t.p) = some invJ)
    (i : List ℕ) (hi : i.length = t.var.length) (hiv : ∀ x ∈ i, x < t.dim) :
    (convert cp small t).map Tensor.p = some (cp t.p)
    ∧ (convert cp small t).map Tensor.var = some t.var
    ∧ (convert cp small t).map (fun rr => rr.x.getD (flattenL t.dim i) 0)
        = some (((allIdx t.dim t.var.length).map (fun j =>
            t.x.getD (flattenL t.dim j) 0 *
              ((List.range t.var.length).map (fun k =>
                match t.var.getD k IndexType.Covariant with
                | IndexType.Covariant =>
                    invJ.x.getD (i.getD k 0 * t.dim + j.getD k 0) 0
                | IndexType.Contravariant =>
                    (jacobian t.dim cp small t.p).x.getD
                      (i.getD k 0 * t.dim + j.getD k 0) 0)).prod)).sum) := by
  refine ⟨?_, ?_, ?_⟩
  · simp only [convert, hinv, Option.map_some']
  · simp only [convert, hinv, Option.map_some']
  · simp only [convert, hinv, Option.map_some']
    rw [allIdx_map_getD t.dim t.var.length _ i hi hiv]

/-- The dimension-1 contravariant tensor `(7)` used in the C8 witness. -/
def Ct : Tensor := ⟨1, [0], [IndexType.Contravariant], [7]⟩

/-- Witness for C8 at a concrete input: converting the vector `(7)` along
the identity conversion of a 1-dimensional system (Jacobian `[[1]]`,
inverse `[[1]]`) yields the component `7` at the index `(0)`. -/
theorem c8_convert_spec_witness :
    (convert (fun q => q) (fun _ => 1 / 100) Ct).map (fun rr => rr.x.getD (flattenL 1 [0]) 0)
      = some 7 := by
  have hinv : tensorInverse (jacobian Ct.dim (fun q => q) (fun _ => 1 / 100) Ct.p)
      = some ⟨1, [0], [IndexType.Covariant, IndexType.Contravariant], [1]⟩ := by
    norm_num [jacobian, tensorInverse, lu_decompose, rowNorms, rowNormsFrom, rowAbsMax,
      mget, mset, luStep, absmin, lu_substitution, Ct, List.range_succ, otherIndex,
      show List.range 1 = [0] from rfl]
  have h := (c8_convert_spec (fun q => q) (fun _ => 1 / 100) Ct _ hinv [0] rfl
    (by decide)).2.2
  rw [show Ct.dim = 1 from rfl] at h
  rw [h]
  norm_num [Ct, allIdx, flattenL, List.range_succ, jacobian]

/-- Concrete dimension-1 vectors for the C9 witness. -/
def WA : Tensor := ⟨1, [0], [IndexType.Contravariant], [1]⟩

def WB : Tensor := ⟨1, [0], [IndexType.Contravariant], [2]⟩

def WC : Tensor := ⟨1, [0], [IndexType.Contravariant], [3]⟩

/-- Witness for C9 at a concrete input: `(1 + 2) + 3` and `1 + (2 + 3)`
both give the component `6`, and the two associations are `equals`. -/
theorem c9_add_algebra_witness :
    (addT WA WB).bind (fun ab => addT ab WC)
        = some ⟨1, [0], [IndexType.Contravariant], [6]⟩
    ∧ (addT WB WC).bind (fun bc => addT WA bc)
        = some ⟨1, [0], [IndexType.Contravariant], [6]⟩
    ∧ equalsT ⟨1, [0], [IndexType.Contravariant], [6]⟩
        ⟨1, [0], [IndexType.Contravariant], [6]⟩ := by
  have h1 : (addT WA WB).bind (fun ab => addT ab WC)
      = some ⟨1, [0], [IndexType.Contravariant], [6]⟩ := by
    norm_num [addT, WA, WB, WC, show List.range 1 = [0] from rfl]
  have h2 : (addT WB WC).bind (fun bc => addT WA bc)
      = some ⟨1, [0], [IndexType.Contravariant], [6]⟩ := by
    norm_num [addT, WA, WB, WC, show List.range 1 = [0] from rfl]
  exact ⟨h1, h2,
    (c9_add_algebra WA WB WC rfl rfl rfl rfl rfl rfl rfl).1 _ _ h1 h2⟩
